import Mathlib

/-!
Verification of the VibeSync room-synchronization engine (src/server.js,
second revision: the socket.io handlers at lines 337-512).

The engine state is an in-memory registry mapping 4-letter room codes to
rooms.  Each socket handler is embedded as a pure function from the
registry (plus the sender id and the event payload) to the new registry
together with the list of broadcasts it emits.  JavaScript `Map` objects
are embedded as insertion-ordered association lists, and JavaScript
`Array.prototype.splice(i, 1)` is embedded with its exact index-clamping
semantics (negative indices count from the end).
-/

namespace VibeSync

/-- A track is opaque to the engine: it only relays the payload. -/
structure Track where
  tid : Nat
deriving DecidableEq

/-- A chat message: `{ name, text, time: Date.now() }`. -/
structure Msg where
  name : String
  text : String
  time : Nat
deriving DecidableEq

/-- A pending request: `{ ...trackData, requestedBy: name }`. -/
structure Req where
  track : Track
  requestedBy : String
deriving DecidableEq

/-- Room codes are JavaScript strings, embedded as character lists. -/
abbrev Code := List Char

/-- A room: `{ host, users, currentTrack, queue, messages, requests }`. -/
structure Room where
  host : Nat
  users : List (Nat × String)
  currentTrack : Option Track
  queue : List Track
  messages : List Msg
  requests : List Req
deriving DecidableEq

/-- The `rooms` object: insertion-ordered map from code to room. -/
abbrev Registry := List (Code × Room)

/-- `users.has(id)` on a JavaScript Map embedded as an association list. -/
def mapHas : List (Nat × String) → Nat → Bool
  | [], _ => false
  | p :: tl, k => p.1 == k || mapHas tl k

/-- `users.get(id)` with a default (the engine only calls get after has). -/
def mapGetD : List (Nat × String) → Nat → String → String
  | [], _, d => d
  | p :: tl, k, d => if p.1 = k then p.2 else mapGetD tl k d

/-- `users.set(id, v)`: update in place when present, else append. -/
def mapSet (m : List (Nat × String)) (k : Nat) (v : String) :
    List (Nat × String) :=
  if mapHas m k then m.map (fun p => if p.1 = k then (k, v) else p)
  else m ++ [(k, v)]

/-- `users.delete(id)`: drop every pair with that key. -/
def mapDelete : List (Nat × String) → Nat → List (Nat × String)
  | [], _ => []
  | p :: tl, k => if p.1 = k then mapDelete tl k else p :: mapDelete tl k

/-- `rooms[code]` lookup. -/
def lookupRoom : Registry → Code → Option Room
  | [], _ => none
  | e :: tl, c => if e.1 = c then some e.2 else lookupRoom tl c

/-- Overwrite the room stored under an existing code, in place. -/
def setRoom : Registry → Code → Room → Registry
  | [], _, _ => []
  | e :: tl, c, rm =>
      if e.1 = c then (c, rm) :: setRoom tl c rm else e :: setRoom tl c rm

/-- The socket ids of every member: recipients of `io.to(roomCode)`. -/
def allKeys (m : List (Nat × String)) : List Nat := m.map Prod.fst

/-- Every member except the sender: recipients of `socket.to(roomCode)`. -/
def otherKeys (m : List (Nat × String)) (sid : Nat) : List Nat :=
  (m.map Prod.fst).filter (fun k => k ≠ sid)

/-- The events the engine can emit to clients. -/
inductive Event
  | load_track (t : Option Track)
  | play (time : Int)
  | pause (time : Int)
  | seek (time : Int)
  | queue_update (q : List Track)
  | chat_message (m : Msg)
  | reaction (e : String)
  | requests_update (rs : List Req)
  | user_joined
  | host_transferred
  | room_users (l : List (String × Bool))
deriving DecidableEq

/-- One emitted broadcast: `delay` is 0 except for the `setTimeout` used
by the auto-advance (1500 ms), `recips` the target socket ids. -/
structure Broadcast where
  delay : Nat
  recips : List Nat
  ev : Event
deriving DecidableEq

/-- `getRoomUsers`: the presence view `{ name, isHost }` per member. -/
def getRoomUsers (rm : Room) : List (String × Bool) :=
  rm.users.map (fun p => (p.2, p.1 = rm.host))

/-- `.trim()`: strip leading and trailing whitespace. -/
def jsTrim (l : List Char) : List Char :=
  ((l.dropWhile Char.isWhitespace).reverse.dropWhile Char.isWhitespace).reverse

/-- `(name || dflt).trim().slice(0, 20)`. -/
def normName (s : String) (dflt : String) : String :=
  ⟨(jsTrim (if s = "" then dflt else s).data).take 20⟩

/-- `s.toUpperCase()` on ASCII. -/
def upChar (c : Char) : Char :=
  if 'a' ≤ c ∧ c ≤ 'z' then Char.ofNat (c.toNat - 32) else c

/-- `code.toUpperCase()`. -/
def jsUpper (s : Code) : Code := s.map upChar

/-- The clamped start index of `splice(i, 1)`:
`i < 0 ? max(len + i, 0) : min(i, len)`. -/
def spliceStart (len : Nat) (i : Int) : Nat :=
  if i < 0 then ((len : Int) + i).toNat else min i.toNat len

/-- `l.splice(i, 1)`: the remaining list and the removed element. -/
def splice1 (l : List α) (i : Int) : List α × Option α :=
  (l.take (spliceStart l.length i) ++ l.drop (spliceStart l.length i + 1),
   l.get? (spliceStart l.length i))

/-- The alphabet of `generateRoomCode`. -/
def chars : List Char := "ABCDEFGHIJKLMNOPQRSTUVWXYZ".toList

/-- `generateRoomCode` applied to one batch of four random draws
(`chars.charAt(Math.floor(Math.random() * chars.length))` four times);
each draw is `Math.floor(Math.random() * 26)`, a natural below 26,
embedded as an arbitrary natural reduced mod 26. -/
def generateRoomCode (d : Fin 4 → Nat) : Code :=
  (List.finRange 4).map (fun i => chars.getD (d i % 26) 'A')

/-- One attempt of the `do { code = generate() } while (rooms[code])`
retry loop is fresh when the generated code is not a live room. -/
def freshAt (reg : Registry) (draws : Nat → Fin 4 → Nat) (n : Nat) : Prop :=
  lookupRoom reg (generateRoomCode (draws n)) = none

instance (reg : Registry) (draws : Nat → Fin 4 → Nat) :
    DecidablePred (freshAt reg draws) := fun n =>
  inferInstanceAs (Decidable (lookupRoom reg (generateRoomCode (draws n)) = none))

/-- The code returned by the retry loop: the first fresh attempt of the
random stream.  The loop terminates exactly when a fresh attempt exists. -/
def pickCode (reg : Registry) (draws : Nat → Fin 4 → Nat)
    (h : ∃ n, freshAt reg draws n) : Code :=
  generateRoomCode (draws (Nat.find h))

/-- The `create_room` handler, given the code the retry loop produced:
insert the new room with the creator as host and sole member, ack
`{ success, roomCode, isHost: true }`, broadcast the presence list. -/
def create_room (reg : Registry) (sid : Nat) (name : String) (code : Code) :
    Registry × (Code × Bool) × List Broadcast :=
  let room : Room :=
    { host := sid, users := [(sid, normName name "Host")],
      currentTrack := none, queue := [], messages := [], requests := [] }
  (reg ++ [(code, room)], (code, true),
   [⟨0, allKeys room.users, Event.room_users (getRoomUsers room)⟩])

/-- The acknowledgment returned to a `join_room` caller. -/
inductive JoinResp
  | ok (roomCode : Code) (isHost : Bool) (currentTrack : Option Track)
      (queue : List Track) (messages : List Msg) (requests : List Req)
  | err (message : String)
deriving DecidableEq

/-- The `join_room` handler: uppercase the code, on hit add the member,
ack the full room snapshot with `isHost: false`, broadcast presence to
everyone and `user_joined` to the others; on miss ack a failure. -/
def join_room (reg : Registry) (sid : Nat) (code : Code) (name : String) :
    Registry × JoinResp × List Broadcast :=
  let roomCode := jsUpper code
  let displayName := normName name "Listener"
  match lookupRoom reg roomCode with
  | some rm =>
      let rm' : Room := { rm with users := mapSet rm.users sid displayName }
      (setRoom reg roomCode rm',
       JoinResp.ok roomCode false rm.currentTrack rm.queue rm.messages rm.requests,
       [⟨0, allKeys rm'.users, Event.room_users (getRoomUsers rm')⟩,
        ⟨0, otherKeys rm'.users sid, Event.user_joined⟩])
  | none => (reg, JoinResp.err "Room not found or expired.", [])

/-- The `load_track` handler: host-only; store the track and relay it to
every other member. -/
def load_track (reg : Registry) (sid : Nat) (code : Code)
    (trackData : Option Track) : Registry × List Broadcast :=
  match lookupRoom reg code with
  | some rm =>
      if rm.host = sid then
        (setRoom reg code { rm with currentTrack := trackData },
         [⟨0, otherKeys rm.users sid, Event.load_track trackData⟩])
      else (reg, [])
  | none => (reg, [])

/-- The `play` handler: host-only; stateless relay to the other members. -/
def play (reg : Registry) (sid : Nat) (code : Code) (time : Int) :
    Registry × List Broadcast :=
  match lookupRoom reg code with
  | some rm =>
      if rm.host = sid then (reg, [⟨0, otherKeys rm.users sid, Event.play time⟩])
      else (reg, [])
  | none => (reg, [])

/-- The `pause` handler: host-only; stateless relay to the other members. -/
def pause (reg : Registry) (sid : Nat) (code : Code) (time : Int) :
    Registry × List Broadcast :=
  match lookupRoom reg code with
  | some rm =>
      if rm.host = sid then (reg, [⟨0, otherKeys rm.users sid, Event.pause time⟩])
      else (reg, [])
  | none => (reg, [])

/-- The `seek` handler: host-only; stateless relay to the other members. -/
def seek (reg : Registry) (sid : Nat) (code : Code) (time : Int) :
    Registry × List Broadcast :=
  match lookupRoom reg code with
  | some rm =>
      if rm.host = sid then (reg, [⟨0, otherKeys rm.users sid, Event.seek time⟩])
      else (reg, [])
  | none => (reg, [])

/-- The `add_to_queue` handler: host-only and `trackData` truthy; append
to the queue and broadcast the full queue to all members. -/
def add_to_queue (reg : Registry) (sid : Nat) (code : Code)
    (trackData : Option Track) : Registry × List Broadcast :=
  match lookupRoom reg code with
  | some rm =>
      if rm.host = sid then
        match trackData with
        | some t =>
            let rm' : Room := { rm with queue := rm.queue ++ [t] }
            (setRoom reg code rm',
             [⟨0, allKeys rm.users, Event.queue_update rm'.queue⟩])
        | none => (reg, [])
      else (reg, [])
  | none => (reg, [])

/-- The `remove_from_queue` handler: host-only with a numeric index;
`queue.splice(index, 1)` then broadcast the queue unconditionally. -/
def remove_from_queue (reg : Registry) (sid : Nat) (code : Code)
    (index : Option Int) : Registry × List Broadcast :=
  match lookupRoom reg code with
  | some rm =>
      if rm.host = sid then
        match index with
        | some i =>
            let rm' : Room := { rm with queue := (splice1 rm.queue i).1 }
            (setRoom reg code rm',
             [⟨0, allKeys rm.users, Event.queue_update rm'.queue⟩])
        | none => (reg, [])
      else (reg, [])
  | none => (reg, [])

/-- The `track_ended` handler: host-only; pop the queue front into the
current track, broadcast `load_track` and the queue to all members and a
delayed `play(0)`, or clear the current track when the queue is empty. -/
def track_ended (reg : Registry) (sid : Nat) (code : Code) :
    Registry × List Broadcast :=
  match lookupRoom reg code with
  | some rm =>
      if rm.host = sid then
        match rm.queue with
        | next :: rest =>
            let rm' : Room := { rm with currentTrack := some next, queue := rest }
            (setRoom reg code rm',
             [⟨0, allKeys rm.users, Event.load_track (some next)⟩,
              ⟨0, allKeys rm.users, Event.queue_update rest⟩,
              ⟨1500, allKeys rm.users, Event.play 0⟩])
        | [] => (setRoom reg code { rm with currentTrack := none }, [])
      else (reg, [])
  | none => (reg, [])

/-- The `send_message` handler: dropped unless the room exists, the text
is non-empty and the sender is a member; the text is cut to 200
characters, the history capped at 100 (oldest dropped), and the single
new message broadcast to all members. -/
def send_message (reg : Registry) (sid : Nat) (code : Code) (text : String)
    (now : Nat) : Registry × List Broadcast :=
  match lookupRoom reg code with
  | some rm =>
      if text = "" then (reg, [])
      else if mapHas rm.users sid then
        let msg : Msg :=
          { name := mapGetD rm.users sid "", text := text.take 200, time := now }
        let ms := rm.messages ++ [msg]
        let ms := if ms.length > 100 then ms.tail else ms
        (setRoom reg code { rm with messages := ms },
         [⟨0, allKeys rm.users, Event.chat_message msg⟩])
      else (reg, [])
  | none => (reg, [])

/-- The `send_reaction` handler: stateless fan-out to all members when
the sender is a member and the emoji is truthy. -/
def send_reaction (reg : Registry) (sid : Nat) (code : Code)
    (emoji : String) : Registry × List Broadcast :=
  match lookupRoom reg code with
  | some rm =>
      if emoji = "" then (reg, [])
      else if mapHas rm.users sid then
        (reg, [⟨0, allKeys rm.users, Event.reaction emoji⟩])
      else (reg, [])
  | none => (reg, [])

/-- The `request_track` handler: member-only and guest-only; append
`{ ...trackData, requestedBy }` to the requests and broadcast them. -/
def request_track (reg : Registry) (sid : Nat) (code : Code)
    (trackData : Option Track) : Registry × List Broadcast :=
  match lookupRoom reg code with
  | some rm =>
      match trackData with
      | some t =>
          if mapHas rm.users sid ∧ rm.host ≠ sid then
            let rm' : Room :=
              { rm with requests :=
                  rm.requests ++ [{ track := t, requestedBy := mapGetD rm.users sid "" }] }
            (setRoom reg code rm',
             [⟨0, allKeys rm.users, Event.requests_update rm'.requests⟩])
          else (reg, [])
      | none => (reg, [])
  | none => (reg, [])

/-- The `approve_request` handler: host-only with a numeric index;
splice the request out, return early when nothing was removed, else
either queue its track or make it the current track (clearing the
queue), broadcasting the affected lists. -/
def approve_request (reg : Registry) (sid : Nat) (code : Code)
    (index : Option Int) (addToQueue : Bool) : Registry × List Broadcast :=
  match lookupRoom reg code with
  | some rm =>
      if rm.host = sid then
        match index with
        | some i =>
            let sp := splice1 rm.requests i
            match sp.2 with
            | none => (setRoom reg code { rm with requests := sp.1 }, [])
            | some req =>
                if addToQueue then
                  let rm' : Room :=
                    { rm with requests := sp.1, queue := rm.queue ++ [req.track] }
                  (setRoom reg code rm',
                   [⟨0, allKeys rm.users, Event.queue_update rm'.queue⟩,
                    ⟨0, allKeys rm.users, Event.requests_update rm'.requests⟩])
                else
                  let rm' : Room :=
                    { rm with requests := sp.1, currentTrack := some req.track,
                              queue := [] }
                  (setRoom reg code rm',
                   [⟨0, allKeys rm.users, Event.load_track (some req.track)⟩,
                    ⟨0, allKeys rm.users, Event.queue_update rm'.queue⟩,
                    ⟨0, allKeys rm.users, Event.requests_update rm'.requests⟩])
        | none => (reg, [])
      else (reg, [])
  | none => (reg, [])

/-- The `reject_request` handler: host-only with a numeric index; splice
the request out and broadcast the request list unconditionally. -/
def reject_request (reg : Registry) (sid : Nat) (code : Code)
    (index : Option Int) : Registry × List Broadcast :=
  match lookupRoom reg code with
  | some rm =>
      if rm.host = sid then
        match index with
        | some i =>
            let rm' : Room := { rm with requests := (splice1 rm.requests i).1 }
            (setRoom reg code rm',
             [⟨0, allKeys rm.users, Event.requests_update rm'.requests⟩])
        | none => (reg, [])
      else (reg, [])
  | none => (reg, [])

/-- The per-room state effect of the `disconnect` handler: delete the
member; an emptied room is dropped; when the host left, the first
remaining insertion-order member becomes host. -/
def discRoomState (sid : Nat) (rm : Room) : Option Room :=
  if mapHas rm.users sid then
    match mapDelete rm.users sid with
    | [] => none
    | u :: rest =>
        some { rm with users := u :: rest,
                       host := if rm.host = sid then u.1 else rm.host }
  else some rm

/-- The per-room broadcasts of the `disconnect` handler:
`host_transferred` to the promoted member, then the presence list. -/
def discRoomBcasts (sid : Nat) (rm : Room) : List Broadcast :=
  if mapHas rm.users sid then
    match mapDelete rm.users sid with
    | [] => []
    | u :: rest =>
        let rm' : Room :=
          { rm with users := u :: rest,
                    host := if rm.host = sid then u.1 else rm.host }
        (if rm.host = sid then [⟨0, [u.1], Event.host_transferred⟩] else []) ++
        [⟨0, allKeys rm'.users, Event.room_users (getRoomUsers rm')⟩]
  else []

/-- The registry left after `disconnect`, room by room in entry order. -/
def discReg (sid : Nat) : Registry → Registry
  | [] => []
  | e :: tl =>
      match discRoomState sid e.2 with
      | none => discReg sid tl
      | some rm' => (e.1, rm') :: discReg sid tl

/-- The broadcasts of `disconnect`, room by room in entry order. -/
def discBcasts (sid : Nat) : Registry → List Broadcast
  | [] => []
  | e :: tl => discRoomBcasts sid e.2 ++ discBcasts sid tl

/-- The `disconnect` handler: sweep every room the socket belongs to. -/
def disconnect (reg : Registry) (sid : Nat) : Registry × List Broadcast :=
  (discReg sid reg, discBcasts sid reg)

/-- The states reachable from an empty registry by any sequence of
handler invocations.  The `create` step records the retry loop's exit
condition: the inserted code is a generated code that was not live. -/
inductive Reachable : Registry → Prop
  | init : Reachable []
  | create (reg : Registry) (sid : Nat) (name : String) (d : Fin 4 → Nat)
      (hfresh : lookupRoom reg (generateRoomCode d) = none) :
      Reachable reg → Reachable (create_room reg sid name (generateRoomCode d)).1
  | join (reg : Registry) (sid : Nat) (code : Code) (name : String) :
      Reachable reg → Reachable (join_room reg sid code name).1
  | load (reg : Registry) (sid : Nat) (code : Code) (t : Option Track) :
      Reachable reg → Reachable (load_track reg sid code t).1
  | playStep (reg : Registry) (sid : Nat) (code : Code) (t : Int) :
      Reachable reg → Reachable (play reg sid code t).1
  | pauseStep (reg : Registry) (sid : Nat) (code : Code) (t : Int) :
      Reachable reg → Reachable (pause reg sid code t).1
  | seekStep (reg : Registry) (sid : Nat) (code : Code) (t : Int) :
      Reachable reg → Reachable (seek reg sid code t).1
  | addQ (reg : Registry) (sid : Nat) (code : Code) (t : Option Track) :
      Reachable reg → Reachable (add_to_queue reg sid code t).1
  | remQ (reg : Registry) (sid : Nat) (code : Code) (i : Option Int) :
      Reachable reg → Reachable (remove_from_queue reg sid code i).1
  | ended (reg : Registry) (sid : Nat) (code : Code) :
      Reachable reg → Reachable (track_ended reg sid code).1
  | msg (reg : Registry) (sid : Nat) (code : Code) (text : String) (now : Nat) :
      Reachable reg → Reachable (send_message reg sid code text now).1
  | react (reg : Registry) (sid : Nat) (code : Code) (emoji : String) :
      Reachable reg → Reachable (send_reaction reg sid code emoji).1
  | reqT (reg : Registry) (sid : Nat) (code : Code) (t : Option Track) :
      Reachable reg → Reachable (request_track reg sid code t).1
  | appr (reg : Registry) (sid : Nat) (code : Code) (i : Option Int) (b : Bool) :
      Reachable reg → Reachable (approve_request reg sid code i b).1
  | rej (reg : Registry) (sid : Nat) (code : Code) (i : Option Int) :
      Reachable reg → Reachable (reject_request reg sid code i).1
  | disc (reg : Registry) (sid : Nat) :
      Reachable reg → Reachable (disconnect reg sid).1

/-- Well-formedness of one room: the host is a member and the member map
is non-empty. -/
def RoomWF (rm : Room) : Prop := mapHas rm.users rm.host = true ∧ rm.users ≠ []

/-- Well-formedness of the registry: codes are distinct and every live
room is well-formed. -/
def RegWF (reg : Registry) : Prop :=
  (reg.map Prod.fst).Nodup ∧ ∀ e ∈ reg, RoomWF e.2

def cA : Code := "AAAA".toList

def rmC2 : Room :=
  { host := 1, users := [(1, "H"), (2, "G")], currentTrack := none,
    queue := [], messages := [], requests := [] }

def regC2 : Registry := [(cA, rmC2)]

def rmC4 : Room :=
  { host := 1, users := [(1, "H")], currentTrack := none,
    queue := [⟨10⟩], messages := [], requests := [] }

def regC4 : Registry := [(cA, rmC4)]

def rmC10 : Room :=
  { host := 1, users := [(1, "H"), (2, "G")], currentTrack := none,
    queue := [], messages := [],
    requests := [{ track := ⟨9⟩, requestedBy := "G" }] }

def regC10 : Registry := [(cA, rmC10)]

def rmC3 : Room :=
  { host := 1, users := [(1, "H"), (2, "G")], currentTrack := some ⟨1⟩,
    queue := [⟨7⟩, ⟨8⟩], messages := [], requests := [] }

def regC3 : Registry := [(cA, rmC3)]

def rmC6 : Room :=
  { host := 1, users := [(1, "H"), (2, "G")], currentTrack := some ⟨1⟩,
    queue := [⟨2⟩], messages := [],
    requests := [{ track := ⟨9⟩, requestedBy := "G" }] }

def regC6 : Registry := [(cA, rmC6)]

def rmC8 : Room :=
  { host := 1, users := [(1, "H"), (2, "G")], currentTrack := none,
    queue := [], messages := [{ name := "H", text := "yo", time := 3 }],
    requests := [] }

def regC8 : Registry := [(cA, rmC8)]

def drawsA : Nat → Fin 4 → Nat := fun _ _ => 0

def dZero : Fin 4 → Nat := fun _ => 0

def regW1 : Registry := (create_room [] 1 "Al" (generateRoomCode dZero)).1

def regW2 : Registry := (join_room regW1 2 ("aaaa".toList) "Bo").1

def rmW2 : Room :=
  { host := 1, users := [(1, "Al"), (2, "Bo")], currentTrack := none,
    queue := [], messages := [], requests := [] }

theorem mapHas_iff (m : List (Nat × String)) (k : Nat) :
    mapHas m k = true ↔ ∃ p ∈ m, p.1 = k := by
  induction m with
  | nil => simp [mapHas]
  | cons p tl ih =>
      simp only [mapHas, Bool.or_eq_true, beq_iff_eq, ih, List.mem_cons]
      constructor
      · rintro (h | ⟨q, hq, hqk⟩)
        · exact ⟨p, Or.inl rfl, h⟩
        · exact ⟨q, Or.inr hq, hqk⟩
      · rintro ⟨q, hq | hq, hqk⟩
        · exact Or.inl (hq ▸ hqk)
        · exact Or.inr ⟨q, hq, hqk⟩

theorem mapHas_ne_nil {m : List (Nat × String)} {k : Nat}
    (h : mapHas m k = true) : m ≠ [] := by
  cases m with
  | nil => simp [mapHas] at h
  | cons p tl => simp

theorem mapSet_ne_nil (m : List (Nat × String)) (k : Nat) (v : String) :
    mapSet m k v ≠ [] := by
  unfold mapSet
  split
  · rename_i h
    have hm := mapHas_ne_nil h
    cases m with
    | nil => exact absurd rfl hm
    | cons p tl => simp
  · simp

theorem mapHas_mapSet_of {m : List (Nat × String)} {j : Nat} (k : Nat)
    (v : String) (h : mapHas m j = true) : mapHas (mapSet m k v) j = true := by
  rcases (mapHas_iff m j).1 h with ⟨p, hp, hpj⟩
  unfold mapSet
  split
  · refine (mapHas_iff _ _).2 ?_
    by_cases hk : p.1 = k
    · exact ⟨(k, v), List.mem_map.2 ⟨p, hp, by simp [hk]⟩, by simp [← hpj, hk]⟩
    · exact ⟨p, List.mem_map.2 ⟨p, hp, by simp [hk]⟩, hpj⟩
  · exact (mapHas_iff _ _).2 ⟨p, List.mem_append_left _ hp, hpj⟩

theorem mapHas_mapSet_self (m : List (Nat × String)) (k : Nat) (v : String) :
    mapHas (mapSet m k v) k = true := by
  unfold mapSet
  split
  · rename_i h
    rcases (mapHas_iff m k).1 h with ⟨p, hp, hpk⟩
    exact (mapHas_iff _ _).2 ⟨(k, v), List.mem_map.2 ⟨p, hp, by simp [hpk]⟩, rfl⟩
  · exact (mapHas_iff _ _).2 ⟨(k, v), List.mem_append_right _ (by simp), rfl⟩

theorem mem_mapDelete {m : List (Nat × String)} {k : Nat} {p : Nat × String}
    (h : p ∈ mapDelete m k) : p ∈ m ∧ p.1 ≠ k := by
  induction m with
  | nil => simp [mapDelete] at h
  | cons q tl ih =>
      by_cases hq : q.1 = k
      · simp only [mapDelete, if_pos hq] at h
        exact ⟨List.mem_cons_of_mem _ (ih h).1, (ih h).2⟩
      · simp only [mapDelete, if_neg hq] at h
        rcases List.mem_cons.1 h with h | h
        · exact ⟨by simp [h], by simp [h, hq]⟩
        · exact ⟨List.mem_cons_of_mem _ (ih h).1, (ih h).2⟩

theorem mapHas_mapDelete {m : List (Nat × String)} {j k : Nat}
    (hj : mapHas m j = true) (hne : j ≠ k) :
    mapHas (mapDelete m k) j = true := by
  induction m with
  | nil => simp [mapHas] at hj
  | cons q tl ih =>
      simp only [mapHas, Bool.or_eq_true, beq_iff_eq] at hj
      by_cases hq : q.1 = k
      · simp only [mapDelete, if_pos hq]
        rcases hj with hj | hj
        · exact absurd (hj ▸ hq) hne
        · exact ih hj
      · simp only [mapDelete, if_neg hq, mapHas, Bool.or_eq_true, beq_iff_eq]
        rcases hj with hj | hj
        · exact Or.inl hj
        · exact Or.inr (ih hj)

theorem mapDelete_self_nil {m : List (Nat × String)} {sid : Nat}
    (h : ∀ p ∈ m, p.1 = sid) : mapDelete m sid = [] := by
  induction m with
  | nil => rfl
  | cons q tl ih =>
      simp only [mapDelete, if_pos (h q (by simp))]
      exact ih fun p hp => h p (List.mem_cons_of_mem _ hp)

theorem lookupRoom_mem {reg : Registry} {c : Code} {rm : Room}
    (h : lookupRoom reg c = some rm) : (c, rm) ∈ reg := by
  induction reg with
  | nil => simp [lookupRoom] at h
  | cons e tl ih =>
      by_cases he : e.1 = c
      · simp only [lookupRoom, if_pos he] at h
        have : e = (c, rm) := by
          cases e; cases h; cases he; rfl
        simp [this]
      · simp only [lookupRoom, if_neg he] at h
        exact List.mem_cons_of_mem _ (ih h)

theorem lookupRoom_eq_none_iff (reg : Registry) (c : Code) :
    lookupRoom reg c = none ↔ ∀ e ∈ reg, e.1 ≠ c := by
  induction reg with
  | nil => simp [lookupRoom]
  | cons e tl ih =>
      by_cases he : e.1 = c
      · constructor
        · intro h
          simp [lookupRoom, if_pos he] at h
        · intro h
          exact absurd he (h e (by simp))
      · simp only [lookupRoom, if_neg he, ih, List.mem_cons]
        constructor
        · rintro h x (hx | hx)
          · exact hx ▸ he
          · exact h x hx
        · intro h x hx
          exact h x (Or.inr hx)

theorem keys_setRoom (reg : Registry) (c : Code) (rm : Room) :
    (setRoom reg c rm).map Prod.fst = reg.map Prod.fst := by
  induction reg with
  | nil => rfl
  | cons e tl ih =>
      by_cases he : e.1 = c
      · simp [setRoom, if_pos he, he, ih]
      · simp [setRoom, if_neg he, ih]

theorem mem_setRoom {reg : Registry} {c : Code} {rm : Room} {e : Code × Room}
    (h : e ∈ setRoom reg c rm) : e = (c, rm) ∨ e ∈ reg := by
  induction reg with
  | nil => simp [setRoom] at h
  | cons a tl ih =>
      by_cases ha : a.1 = c
      · simp only [setRoom, if_pos ha] at h
        rcases List.mem_cons.1 h with h | h
        · exact Or.inl h
        · rcases ih h with h | h
          · exact Or.inl h
          · exact Or.inr (List.mem_cons_of_mem _ h)
      · simp only [setRoom, if_neg ha] at h
        rcases List.mem_cons.1 h with h | h
        · exact Or.inr (h ▸ List.mem_cons_self a tl)
        · rcases ih h with h | h
          · exact Or.inl h
          · exact Or.inr (List.mem_cons_of_mem _ h)

theorem lookupRoom_setRoom_self {reg : Registry} {c : Code} {rm₀ : Room}
    (rm : Room) (h : lookupRoom reg c = some rm₀) :
    lookupRoom (setRoom reg c rm) c = some rm := by
  induction reg with
  | nil => simp [lookupRoom] at h
  | cons e tl ih =>
      by_cases he : e.1 = c
      · simp [setRoom, if_pos he, lookupRoom]
      · simp only [lookupRoom, if_neg he] at h
        simp only [setRoom, if_neg he, lookupRoom, if_neg he]
        exact ih h

theorem lookupRoom_setRoom_ne {c' c : Code} (reg : Registry) (rm : Room)
    (h : c' ≠ c) : lookupRoom (setRoom reg c rm) c' = lookupRoom reg c' := by
  induction reg with
  | nil => rfl
  | cons e tl ih =>
      by_cases he : e.1 = c
      · have hcc : ¬c = c' := fun hc => h hc.symm
        simp only [setRoom, if_pos he, lookupRoom, if_neg hcc, he]
        simpa [lookupRoom, if_neg (he ▸ hcc : ¬e.1 = c')] using ih
      · by_cases he' : e.1 = c'
        · simp [setRoom, if_neg he, lookupRoom, if_pos he']
        · simp only [setRoom, if_neg he, lookupRoom, if_neg he']
          exact ih

theorem setRoom_of_absent {reg : Registry} {c : Code} (rm : Room)
    (h : ∀ e ∈ reg, e.1 ≠ c) : setRoom reg c rm = reg := by
  induction reg with
  | nil => rfl
  | cons e tl ih =>
      have he : e.1 ≠ c := h e (by simp)
      simp only [setRoom, if_neg he, List.cons.injEq, true_and]
      exact ih fun x hx => h x (List.mem_cons_of_mem _ hx)

theorem setRoom_eq_self {reg : Registry} {c : Code} {rm : Room}
    (hnd : (reg.map Prod.fst).Nodup) (h : lookupRoom reg c = some rm) :
    setRoom reg c rm = reg := by
  induction reg with
  | nil => rfl
  | cons e tl ih =>
      simp only [List.map_cons, List.nodup_cons] at hnd
      by_cases he : e.1 = c
      · simp only [lookupRoom, if_pos he] at h
        have hee : e = (c, rm) := by cases e; cases h; cases he; rfl
        have htl : ∀ x ∈ tl, x.1 ≠ c := by
          intro x hx hxc
          exact hnd.1 (he ▸ hxc ▸ List.mem_map_of_mem Prod.fst hx)
        simp only [setRoom, if_pos he, ← hee, List.cons.injEq, true_and]
        exact setRoom_of_absent rm htl
      · simp only [lookupRoom, if_neg he] at h
        simp only [setRoom, if_neg he, List.cons.injEq, true_and]
        exact ih hnd.2 h

theorem spliceStart_of_ge {len : Nat} {i : Int} (h : (len : Int) ≤ i) :
    spliceStart len i = len := by
  unfold spliceStart
  rw [if_neg (by omega)]
  omega

theorem splice1_of_ge {α : Type} {l : List α} {i : Int}
    (h : (l.length : Int) ≤ i) : splice1 l i = (l, none) := by
  unfold splice1
  rw [spliceStart_of_ge h]
  have h1 : l.take l.length = l := List.take_length l
  have h2 : l.drop (l.length + 1) = [] := List.drop_eq_nil_of_le (by omega)
  have h3 : l.get? l.length = none := List.get?_eq_none.2 (by omega)
  rw [h1, h2, h3, List.append_nil]

theorem spliceStart_nonneg_lt {len : Nat} {i : Int} (h0 : 0 ≤ i)
    (h : i < (len : Int)) : spliceStart len i = i.toNat := by
  unfold spliceStart
  rw [if_neg (by omega)]
  omega

theorem spliceStart_neg {len : Nat} {i : Int} (h : i < 0) :
    spliceStart len i = ((len : Int) + i).toNat := by
  unfold spliceStart
  rw [if_pos h]

theorem not_mem_otherKeys (m : List (Nat × String)) (sid : Nat) :
    sid ∉ otherKeys m sid := by
  intro h
  rcases List.mem_filter.1 h with ⟨-, hd⟩
  simp at hd

theorem mem_otherKeys {m : List (Nat × String)} {k sid : Nat}
    (hk : k ∈ allKeys m) (hne : k ≠ sid) : k ∈ otherKeys m sid := by
  exact List.mem_filter.2 ⟨hk, by simp [hne]⟩

theorem lookupRoom_discReg_none {reg : Registry} {c : Code} (sid : Nat)
    (h : lookupRoom reg c = none) : lookupRoom (discReg sid reg) c = none := by
  induction reg with
  | nil => rfl
  | cons e tl ih =>
      by_cases he : e.1 = c
      · simp [lookupRoom, if_pos he] at h
      · simp only [lookupRoom, if_neg he] at h
        cases hds : discRoomState sid e.2 with
        | none => simpa [discReg, hds] using ih h
        | some rm' => simpa [discReg, hds, lookupRoom, if_neg he] using ih h

theorem lookupRoom_discReg {reg : Registry}
    (hnd : (reg.map Prod.fst).Nodup) (sid : Nat) (c : Code) :
    lookupRoom (discReg sid reg) c =
      (lookupRoom reg c).bind (discRoomState sid) := by
  induction reg with
  | nil => rfl
  | cons e tl ih =>
      simp only [List.map_cons, List.nodup_cons] at hnd
      by_cases he : e.1 = c
      · cases hds : discRoomState sid e.2 with
        | none =>
            have htl : lookupRoom tl c = none := by
              refine (lookupRoom_eq_none_iff tl c).2 fun x hx hxc => ?_
              exact hnd.1 (he ▸ hxc ▸ List.mem_map_of_mem Prod.fst hx)
            simp only [discReg, hds, lookupRoom, if_pos he]
            rw [lookupRoom_discReg_none sid htl]
            simp [hds]
        | some rm' =>
            simp [discReg, hds, lookupRoom, if_pos he]
      · cases hds : discRoomState sid e.2 with
        | none =>
            simp only [discReg, hds, lookupRoom, if_neg he]
            exact ih hnd.2
        | some rm' =>
            simp only [discReg, hds, lookupRoom, if_neg he]
            exact ih hnd.2

theorem keys_discReg_sublist (sid : Nat) (reg : Registry) :
    ((discReg sid reg).map Prod.fst).Sublist (reg.map Prod.fst) := by
  induction reg with
  | nil => exact List.Sublist.refl _
  | cons e tl ih =>
      cases hds : discRoomState sid e.2 with
      | none =>
          have hrw : discReg sid (e :: tl) = discReg sid tl := by
            simp [discReg, hds]
          rw [hrw]
          exact ih.trans (List.sublist_cons_self _ _)
      | some rm' => simpa [discReg, hds] using ih.cons₂ e.1

theorem mem_discReg {sid : Nat} {reg : Registry} {e' : Code × Room}
    (h : e' ∈ discReg sid reg) :
    ∃ e ∈ reg, discRoomState sid e.2 = some e'.2 ∧ e'.1 = e.1 := by
  induction reg with
  | nil => simp [discReg] at h
  | cons e tl ih =>
      cases hds : discRoomState sid e.2 with
      | none =>
          simp only [discReg, hds] at h
          rcases ih h with ⟨x, hx, hxs, hxc⟩
          exact ⟨x, List.mem_cons_of_mem _ hx, hxs, hxc⟩
      | some rm' =>
          simp only [discReg, hds] at h
          rcases List.mem_cons.1 h with h | h
          · exact ⟨e, List.mem_cons_self e tl, by rw [hds, h], by rw [h]⟩
          · rcases ih h with ⟨x, hx, hxs, hxc⟩
            exact ⟨x, List.mem_cons_of_mem _ hx, hxs, hxc⟩

theorem RoomWF_discRoomState {sid : Nat} {rm rm' : Room}
    (hwf : RoomWF rm) (h : discRoomState sid rm = some rm') : RoomWF rm' := by
  unfold discRoomState at h
  by_cases hm : mapHas rm.users sid
  · rw [if_pos hm] at h
    cases hd : mapDelete rm.users sid with
    | nil => rw [hd] at h; cases h
    | cons u rest =>
        rw [hd] at h
        cases h
        by_cases hh : rm.host = sid
        · constructor
          · simp [mapHas, if_pos hh]
          · simp
        · constructor
          · have := mapHas_mapDelete hwf.1 hh
            rw [hd] at this
            simpa [if_neg hh] using this
          · simp
  · rw [if_neg hm] at h
    cases h
    exact hwf

theorem RegWF_setRoom {reg : Registry} {c : Code} {rm : Room}
    (hwf : RegWF reg) (hrm : RoomWF rm) : RegWF (setRoom reg c rm) := by
  constructor
  · rw [keys_setRoom]
    exact hwf.1
  · intro e he
    rcases mem_setRoom he with he | he
    · rw [he]
      exact hrm
    · exact hwf.2 e he

theorem play_fst (reg : Registry) (sid : Nat) (code : Code) (t : Int) :
    (play reg sid code t).1 = reg := by
  cases hlk : lookupRoom reg code with
  | none => simp [play, hlk]
  | some rm => by_cases hh : rm.host = sid <;> simp [play, hlk, hh]

theorem pause_fst (reg : Registry) (sid : Nat) (code : Code) (t : Int) :
    (pause reg sid code t).1 = reg := by
  cases hlk : lookupRoom reg code with
  | none => simp [pause, hlk]
  | some rm => by_cases hh : rm.host = sid <;> simp [pause, hlk, hh]

theorem seek_fst (reg : Registry) (sid : Nat) (code : Code) (t : Int) :
    (seek reg sid code t).1 = reg := by
  cases hlk : lookupRoom reg code with
  | none => simp [seek, hlk]
  | some rm => by_cases hh : rm.host = sid <;> simp [seek, hlk, hh]

theorem send_reaction_fst (reg : Registry) (sid : Nat) (code : Code)
    (emoji : String) : (send_reaction reg sid code emoji).1 = reg := by
  cases hlk : lookupRoom reg code with
  | none => simp [send_reaction, hlk]
  | some rm =>
      by_cases he : emoji = ""
      · simp [send_reaction, hlk, he]
      · by_cases hm : mapHas rm.users sid <;> simp [send_reaction, hlk, he, hm]

theorem regWF_reachable {reg : Registry} (h : Reachable reg) : RegWF reg := by
  induction h with
  | init => exact ⟨List.nodup_nil, by simp⟩
  | create reg sid name d hfresh _ ih =>
      constructor
      · simp only [create_room, List.map_append, List.map_cons, List.map_nil]
        refine List.Nodup.append ih.1 (List.nodup_singleton _) ?_
        intro a ha hb
        simp only [List.mem_singleton] at hb
        rcases List.mem_map.1 ha with ⟨x, hx, hxa⟩
        exact ((lookupRoom_eq_none_iff reg _).1 hfresh x hx) (hxa.trans hb)
      · intro e he
        simp only [create_room] at he
        rcases List.mem_append.1 he with he | he
        · exact ih.2 e he
        · simp only [List.mem_singleton] at he
          rw [he]
          exact ⟨by simp [mapHas], by simp⟩
  | join reg sid code name _ ih =>
      cases hlk : lookupRoom reg (jsUpper code) with
      | none => simpa [join_room, hlk] using ih
      | some rm =>
          simp only [join_room, hlk]
          refine RegWF_setRoom ih ?_
          have hrm := ih.2 _ (lookupRoom_mem hlk)
          exact ⟨mapHas_mapSet_of sid _ hrm.1, mapSet_ne_nil _ _ _⟩
  | load reg sid code t _ ih =>
      cases hlk : lookupRoom reg code with
      | none => simpa [load_track, hlk] using ih
      | some rm =>
          by_cases hh : rm.host = sid
          · simp only [load_track, hlk, if_pos hh]
            exact RegWF_setRoom ih (ih.2 _ (lookupRoom_mem hlk))
          · simpa [load_track, hlk, hh] using ih
  | playStep reg sid code t _ ih =>
      rw [play_fst]
      exact ih
  | pauseStep reg sid code t _ ih =>
      rw [pause_fst]
      exact ih
  | seekStep reg sid code t _ ih =>
      rw [seek_fst]
      exact ih
  | addQ reg sid code t _ ih =>
      cases hlk : lookupRoom reg code with
      | none => simpa [add_to_queue, hlk] using ih
      | some rm =>
          by_cases hh : rm.host = sid
          · cases t with
            | none => simpa [add_to_queue, hlk, hh] using ih
            | some tr =>
                simp only [add_to_queue, hlk, if_pos hh]
                exact RegWF_setRoom ih (ih.2 _ (lookupRoom_mem hlk))
          · simpa [add_to_queue, hlk, hh] using ih
  | remQ reg sid code i _ ih =>
      cases hlk : lookupRoom reg code with
      | none => simpa [remove_from_queue, hlk] using ih
      | some rm =>
          by_cases hh : rm.host = sid
          · cases i with
            | none => simpa [remove_from_queue, hlk, hh] using ih
            | some j =>
                simp only [remove_from_queue, hlk, if_pos hh]
                exact RegWF_setRoom ih (ih.2 _ (lookupRoom_mem hlk))
          · simpa [remove_from_queue, hlk, hh] using ih
  | ended reg sid code _ ih =>
      cases hlk : lookupRoom reg code with
      | none => simpa [track_ended, hlk] using ih
      | some rm =>
          by_cases hh : rm.host = sid
          · cases hq : rm.queue with
            | nil =>
                simp only [track_ended, hlk, if_pos hh, hq]
                exact RegWF_setRoom ih (ih.2 _ (lookupRoom_mem hlk))
            | cons next rest =>
                simp only [track_ended, hlk, if_pos hh, hq]
                exact RegWF_setRoom ih (ih.2 _ (lookupRoom_mem hlk))
          · simpa [track_ended, hlk, hh] using ih
  | msg reg sid code text now _ ih =>
      cases hlk : lookupRoom reg code with
      | none => simpa [send_message, hlk] using ih
      | some rm =>
          by_cases ht : text = ""
          · simpa [send_message, hlk, ht] using ih
          · by_cases hm : mapHas rm.users sid
            · simp only [send_message, hlk, if_neg ht, if_pos hm]
              exact RegWF_setRoom ih (ih.2 _ (lookupRoom_mem hlk))
            · simpa [send_message, hlk, ht, hm] using ih
  | react reg sid code emoji _ ih =>
      rw [send_reaction_fst]
      exact ih
  | reqT reg sid code t _ ih =>
      cases hlk : lookupRoom reg code with
      | none => simpa [request_track, hlk] using ih
      | some rm =>
          cases t with
          | none => simpa [request_track, hlk] using ih
          | some tr =>
              by_cases hcond : mapHas rm.users sid ∧ rm.host ≠ sid
              · simp only [request_track, hlk, if_pos hcond]
                exact RegWF_setRoom ih (ih.2 _ (lookupRoom_mem hlk))
              · simpa [request_track, hlk, hcond] using ih
  | appr reg sid code i b _ ih =>
      cases hlk : lookupRoom reg code with
      | none => simpa [approve_request, hlk] using ih
      | some rm =>
          by_cases hh : rm.host = sid
          · cases i with
            | none => simpa [approve_request, hlk, hh] using ih
            | some j =>
                cases hsp : (splice1 rm.requests j).2 with
                | none =>
                    simp only [approve_request, hlk, if_pos hh, hsp]
                    exact RegWF_setRoom ih (ih.2 _ (lookupRoom_mem hlk))
                | some req =>
                    cases b with
                    | false =>
                        simp only [approve_request, hlk, if_pos hh, hsp,
                          Bool.false_eq_true, if_false]
                        exact RegWF_setRoom ih (ih.2 _ (lookupRoom_mem hlk))
                    | true =>
                        simp only [approve_request, hlk, if_pos hh, hsp, if_true]
                        exact RegWF_setRoom ih (ih.2 _ (lookupRoom_mem hlk))
          · simpa [approve_request, hlk, hh] using ih
  | rej reg sid code i _ ih =>
      cases hlk : lookupRoom reg code with
      | none => simpa [reject_request, hlk] using ih
      | some rm =>
          by_cases hh : rm.host = sid
          · cases i with
            | none => simpa [reject_request, hlk, hh] using ih
            | some j =>
                simp only [reject_request, hlk, if_pos hh]
                exact RegWF_setRoom ih (ih.2 _ (lookupRoom_mem hlk))
          · simpa [reject_request, hlk, hh] using ih
  | disc reg sid _ ih =>
      constructor
      · exact ih.1.sublist (keys_discReg_sublist sid reg)
      · intro e he
        rcases mem_discReg he with ⟨x, hx, hxs, -⟩
        exact RoomWF_discRoomState (ih.2 x hx) hxs

theorem mem_allKeys_of_mapHas {m : List (Nat × String)} {k : Nat}
    (h : mapHas m k = true) : k ∈ allKeys m := by
  rcases (mapHas_iff m k).1 h with ⟨p, hp, hpk⟩
  exact hpk ▸ List.mem_map_of_mem Prod.fst hp

/-- Claim C2: every host-only command (load_track, play, pause, seek,
add_to_queue, remove_from_queue, track_ended, approve_request,
reject_request) sent by a non-host, or addressed to a room that does not
exist, changes no state and emits no broadcast: it is dropped silently. -/
theorem hostOnly_dropped_for_nonhost (reg : Registry) (sid : Nat) (code : Code)
    (t : Option Track) (time : Int) (i : Option Int) (b : Bool)
    (hnh : lookupRoom reg code = none ∨
      ∃ rm, lookupRoom reg code = some rm ∧ rm.host ≠ sid) :
    load_track reg sid code t = (reg, []) ∧
    play reg sid code time = (reg, []) ∧
    pause reg sid code time = (reg, []) ∧
    seek reg sid code time = (reg, []) ∧
    add_to_queue reg sid code t = (reg, []) ∧
    remove_from_queue reg sid code i = (reg, []) ∧
    track_ended reg sid code = (reg, []) ∧
    approve_request reg sid code i b = (reg, []) ∧
    reject_request reg sid code i = (reg, []) := by
  rcases hnh with hlk | ⟨rm, hlk, hh⟩
  · refine ⟨?_, ?_, ?_, ?_, ?_, ?_, ?_, ?_, ?_⟩ <;>
      simp [load_track, play, pause, seek, add_to_queue, remove_from_queue,
        track_ended, approve_request, reject_request, hlk]
  · refine ⟨?_, ?_, ?_, ?_, ?_, ?_, ?_, ?_, ?_⟩ <;>
      simp [load_track, play, pause, seek, add_to_queue, remove_from_queue,
        track_ended, approve_request, reject_request, hlk, hh]

/-- Witness for C2: guest 2 issues every host-only command in a concrete
room hosted by 1, and all are dropped. -/
theorem hostOnly_dropped_for_nonhost_witness :
    load_track regC2 2 cA (some ⟨7⟩) = (regC2, []) ∧
    play regC2 2 cA 5 = (regC2, []) ∧
    pause regC2 2 cA 5 = (regC2, []) ∧
    seek regC2 2 cA 5 = (regC2, []) ∧
    add_to_queue regC2 2 cA (some ⟨7⟩) = (regC2, []) ∧
    remove_from_queue regC2 2 cA (some 0) = (regC2, []) ∧
    track_ended regC2 2 cA = (regC2, []) ∧
    approve_request regC2 2 cA (some 0) true = (regC2, []) ∧
    reject_request regC2 2 cA (some 0) = (regC2, []) :=
  hostOnly_dropped_for_nonhost regC2 2 cA (some ⟨7⟩) 5 (some 0) true
    (Or.inr ⟨rmC2, rfl, by decide⟩)

/-- Claim C7: each host-issued playback command (load_track, play, pause,
seek) is relayed verbatim to every other member of the room, and is never
delivered back to the sender. -/
theorem playback_relay_excludes_sender (reg : Registry) (sid : Nat)
    (code : Code) (rm : Room) (t : Option Track) (time : Int)
    (hlk : lookupRoom reg code = some rm) (hh : rm.host = sid) :
    (load_track reg sid code t).2 =
      [⟨0, otherKeys rm.users sid, Event.load_track t⟩] ∧
    (play reg sid code time).2 =
      [⟨0, otherKeys rm.users sid, Event.play time⟩] ∧
    (pause reg sid code time).2 =
      [⟨0, otherKeys rm.users sid, Event.pause time⟩] ∧
    (seek reg sid code time).2 =
      [⟨0, otherKeys rm.users sid, Event.seek time⟩] ∧
    sid ∉ otherKeys rm.users sid ∧
    (∀ k ∈ allKeys rm.users, k ≠ sid → k ∈ otherKeys rm.users sid) := by
  refine ⟨?_, ?_, ?_, ?_, not_mem_otherKeys _ _,
    fun k hk hne => mem_otherKeys hk hne⟩ <;>
    simp [load_track, play, pause, seek, hlk, hh]

/-- Witness for C7: host 1 of a concrete two-member room; the relays go
exactly to member 2 and never to 1. -/
theorem playback_relay_excludes_sender_witness :
    (load_track regC2 1 cA (some ⟨7⟩)).2 =
      [⟨0, otherKeys rmC2.users 1, Event.load_track (some ⟨7⟩)⟩] ∧
    (play regC2 1 cA 5 : Registry × List Broadcast).2 =
      [⟨0, otherKeys rmC2.users 1, Event.play 5⟩] ∧
    (pause regC2 1 cA 5 : Registry × List Broadcast).2 =
      [⟨0, otherKeys rmC2.users 1, Event.pause 5⟩] ∧
    (seek regC2 1 cA 5 : Registry × List Broadcast).2 =
      [⟨0, otherKeys rmC2.users 1, Event.seek 5⟩] ∧
    (1 : Nat) ∉ otherKeys rmC2.users 1 ∧
    (∀ k ∈ allKeys rmC2.users, k ≠ 1 → k ∈ otherKeys rmC2.users 1) :=
  playback_relay_excludes_sender regC2 1 cA rmC2 (some ⟨7⟩) 5 rfl rfl

/-- Counterexample to C4 as stated: in a room whose queue is `[T10]`,
the host's `remove_from_queue` with index 5 (out of range) still emits a
`queue_update` broadcast, and with index -1 it removes the last element
of the queue instead of leaving it unchanged. -/
theorem remove_from_queue_out_of_range_counterexample :
    (remove_from_queue regC4 1 cA (some 5)).2 =
      [⟨0, [1], Event.queue_update [⟨10⟩]⟩] ∧
    lookupRoom (remove_from_queue regC4 1 cA (some (-1))).1 cA =
      some { host := 1, users := [(1, "H")], currentTrack := none,
             queue := [], messages := [], requests := [] } := by
  decide

/-- Claim C4 (amended): a host-issued `remove_from_queue` with a numeric
index follows JavaScript splice semantics and always broadcasts the
resulting queue: an index at or beyond the queue length leaves the queue
unchanged but still triggers a `queue_update` broadcast, and a negative
index removes the element at position `max(length + i, 0)` counted from
the start (so it does not leave the queue unchanged in general). -/
theorem remove_from_queue_splice_semantics (reg : Registry) (sid : Nat)
    (code : Code) (rm : Room) (i : Int)
    (hlk : lookupRoom reg code = some rm) (hh : rm.host = sid) :
    (∃ rm', lookupRoom (remove_from_queue reg sid code (some i)).1 code =
        some rm' ∧ rm'.queue = (splice1 rm.queue i).1) ∧
    (remove_from_queue reg sid code (some i)).2 =
      [⟨0, allKeys rm.users, Event.queue_update (splice1 rm.queue i).1⟩] ∧
    ((rm.queue.length : Int) ≤ i → (splice1 rm.queue i).1 = rm.queue) ∧
    (i < 0 → (splice1 rm.queue i).1 =
      rm.queue.take (((rm.queue.length : Int) + i).toNat) ++
        rm.queue.drop ((((rm.queue.length : Int) + i).toNat) + 1)) := by
  refine ⟨⟨{ rm with queue := (splice1 rm.queue i).1 }, ?_, rfl⟩, ?_, ?_, ?_⟩
  · simp only [remove_from_queue, hlk, if_pos hh]
    exact lookupRoom_setRoom_self _ hlk
  · simp only [remove_from_queue, hlk, if_pos hh]
  · intro h
    rw [splice1_of_ge h]
  · intro h
    unfold splice1
    rw [spliceStart_neg h]

/-- Witness for C4 (amended): the concrete room of the counterexample. -/
theorem remove_from_queue_splice_semantics_witness :
    ((∃ rm', lookupRoom (remove_from_queue regC4 1 cA (some 5)).1 cA =
        some rm' ∧ rm'.queue = (splice1 rmC4.queue 5).1) ∧
     (remove_from_queue regC4 1 cA (some 5)).2 =
       [⟨0, allKeys rmC4.users, Event.queue_update (splice1 rmC4.queue 5).1⟩] ∧
     ((rmC4.queue.length : Int) ≤ 5 → (splice1 rmC4.queue 5).1 = rmC4.queue) ∧
     ((5 : Int) < 0 → (splice1 rmC4.queue 5).1 =
       rmC4.queue.take (((rmC4.queue.length : Int) + 5).toNat) ++
         rmC4.queue.drop ((((rmC4.queue.length : Int) + 5).toNat) + 1))) ∧
    ((∃ rm', lookupRoom (remove_from_queue regC4 1 cA (some (-1))).1 cA =
        some rm' ∧ rm'.queue = (splice1 rmC4.queue (-1)).1) ∧
     (remove_from_queue regC4 1 cA (some (-1))).2 =
       [⟨0, allKeys rmC4.users, Event.queue_update (splice1 rmC4.queue (-1)).1⟩] ∧
     ((rmC4.queue.length : Int) ≤ -1 → (splice1 rmC4.queue (-1)).1 = rmC4.queue) ∧
     ((-1 : Int) < 0 → (splice1 rmC4.queue (-1)).1 =
       rmC4.queue.take (((rmC4.queue.length : Int) + -1).toNat) ++
         rmC4.queue.drop ((((rmC4.queue.length : Int) + -1).toNat) + 1))) :=
  ⟨remove_from_queue_splice_semantics regC4 1 cA rmC4 5 rfl rfl,
   remove_from_queue_splice_semantics regC4 1 cA rmC4 (-1) rfl rfl⟩

/-- Claim C10: a host-issued `approve_request` whose numeric index is at
or beyond the pending-request count changes nothing (the splice removes
nothing and the handler returns before any emit): the registry is
returned unchanged and no broadcast is emitted. -/
theorem approve_request_out_of_range_noop (reg : Registry) (sid : Nat)
    (code : Code) (rm : Room) (i : Int) (b : Bool)
    (hnd : (reg.map Prod.fst).Nodup)
    (hlk : lookupRoom reg code = some rm) (hh : rm.host = sid)
    (hge : (rm.requests.length : Int) ≤ i) :
    approve_request reg sid code (some i) b = (reg, []) := by
  have hsp := splice1_of_ge hge
  simp only [approve_request, hlk, if_pos hh, hsp]
  rw [show ({ rm with requests := rm.requests } : Room) = rm from rfl]
  rw [setRoom_eq_self hnd hlk]

/-- Witness for C10: request index 3 in a room with one pending request. -/
theorem approve_request_out_of_range_noop_witness :
    ((regC10.map Prod.fst).Nodup ∧ lookupRoom regC10 cA = some rmC10 ∧
      rmC10.host = 1 ∧ (rmC10.requests.length : Int) ≤ 3) ∧
    approve_request regC10 1 cA (some 3) true = (regC10, []) :=
  ⟨⟨by decide, rfl, rfl, by decide⟩,
   approve_request_out_of_range_noop regC10 1 cA rmC10 3 true (by decide) rfl
     rfl (by decide)⟩

/-- Claim C3: when the host signals `track_ended` and the queue is
non-empty, the front entry is popped and becomes the current track,
`load_track` with it is broadcast to all members (host included) and a
`play(0)` is broadcast to all members after the fixed 1500 ms delay;
when the queue is empty the current track is cleared and nothing is
broadcast. -/
theorem track_ended_advances_queue (reg : Registry) (sid : Nat) (code : Code)
    (rm : Room) (hlk : lookupRoom reg code = some rm) (hh : rm.host = sid)
    (hhm : mapHas rm.users rm.host = true) :
    (∀ t rest, rm.queue = t :: rest →
      ∃ rm', lookupRoom (track_ended reg sid code).1 code = some rm' ∧
        rm'.currentTrack = some t ∧ rm'.queue = rest ∧
        (track_ended reg sid code).2 =
          [⟨0, allKeys rm.users, Event.load_track (some t)⟩,
           ⟨0, allKeys rm.users, Event.queue_update rest⟩,
           ⟨1500, allKeys rm.users, Event.play 0⟩] ∧
        rm.host ∈ allKeys rm.users) ∧
    (rm.queue = [] →
      ∃ rm', lookupRoom (track_ended reg sid code).1 code = some rm' ∧
        rm'.currentTrack = none ∧ rm'.queue = [] ∧
        (track_ended reg sid code).2 = []) := by
  constructor
  · intro t rest hq
    refine ⟨{ rm with currentTrack := some t, queue := rest }, ?_, rfl, rfl,
      ?_, mem_allKeys_of_mapHas hhm⟩
    · simp only [track_ended, hlk, if_pos hh, hq]
      exact lookupRoom_setRoom_self _ hlk
    · simp only [track_ended, hlk, if_pos hh, hq]
  · intro hq
    refine ⟨{ rm with currentTrack := none }, ?_, rfl, hq, ?_⟩
    · simp only [track_ended, hlk, if_pos hh, hq]
      exact lookupRoom_setRoom_self _ hlk
    · simp only [track_ended, hlk, if_pos hh, hq]

/-- Witness for C3: queue `[T7, T8]`; after the host's `track_ended` the
current track is T7, the queue `[T8]`, and the three broadcasts go out. -/
theorem track_ended_advances_queue_witness :
    (lookupRoom regC3 cA = some rmC3 ∧ rmC3.host = 1 ∧
      mapHas rmC3.users rmC3.host = true) ∧
    (∃ rm', lookupRoom (track_ended regC3 1 cA).1 cA = some rm' ∧
      rm'.currentTrack = some ⟨7⟩ ∧ rm'.queue = [⟨8⟩] ∧
      (track_ended regC3 1 cA).2 =
        [⟨0, allKeys rmC3.users, Event.load_track (some ⟨7⟩)⟩,
         ⟨0, allKeys rmC3.users, Event.queue_update [⟨8⟩]⟩,
         ⟨1500, allKeys rmC3.users, Event.play 0⟩] ∧
      rmC3.host ∈ allKeys rmC3.users) :=
  ⟨⟨rfl, rfl, by decide⟩,
   (track_ended_advances_queue regC3 1 cA rmC3 rfl rfl (by decide)).1
     ⟨7⟩ [⟨8⟩] rfl⟩

/-- Claim C5: `join_room` uppercases the supplied code before lookup; on
a hit the caller becomes a member and the ack carries `isHost = false`
with the room's current track, queue, chat history and pending requests;
on a miss the ack is a human-readable failure and nothing changes. -/
theorem join_room_normalizes_and_snapshots (reg : Registry) (sid : Nat)
    (code : Code) (name : String) :
    (∀ rm, lookupRoom reg (jsUpper code) = some rm →
      (join_room reg sid code name).2.1 =
        JoinResp.ok (jsUpper code) false rm.currentTrack rm.queue rm.messages
          rm.requests ∧
      ∃ rm', lookupRoom (join_room reg sid code name).1 (jsUpper code) =
          some rm' ∧ mapHas rm'.users sid = true) ∧
    (lookupRoom reg (jsUpper code) = none →
      join_room reg sid code name =
        (reg, JoinResp.err "Room not found or expired.", [])) := by
  constructor
  · intro rm hlk
    constructor
    · simp only [join_room, hlk]
    · refine ⟨{ rm with
          users := mapSet rm.users sid (normName name "Listener") }, ?_,
        mapHas_mapSet_self _ _ _⟩
      simp only [join_room, hlk]
      exact lookupRoom_setRoom_self _ hlk
  · intro hlk
    simp [join_room, hlk]

/-- Witness for C5: joining with the lowercase code `"aaaa"` hits the
room stored under `"AAAA"`; joining an empty registry fails with the
human-readable message and no side effect. -/
theorem join_room_normalizes_and_snapshots_witness :
    (lookupRoom regC2 (jsUpper ("aaaa".toList)) = some rmC2) ∧
    ((join_room regC2 3 ("aaaa".toList) "Newbie").2.1 =
      JoinResp.ok (jsUpper ("aaaa".toList)) false rmC2.currentTrack rmC2.queue
        rmC2.messages rmC2.requests ∧
     ∃ rm', lookupRoom (join_room regC2 3 ("aaaa".toList) "Newbie").1
        (jsUpper ("aaaa".toList)) = some rm' ∧ mapHas rm'.users 3 = true) ∧
    join_room [] 3 ("aaaa".toList) "Newbie" =
      ([], JoinResp.err "Room not found or expired.", []) :=
  ⟨by decide,
   (join_room_normalizes_and_snapshots regC2 3 ("aaaa".toList) "Newbie").1
     rmC2 (by decide),
   (join_room_normalizes_and_snapshots [] 3 ("aaaa".toList) "Newbie").2 rfl⟩

/-- Claim C6: a host-approved request at a valid index is removed from
the pending list (which shrinks by one); with `addToQueue` its track is
appended to the queue tail, the updated queue broadcast and the current
track unchanged; without, its track becomes the current track, the queue
is cleared, and `load_track` plus the emptied queue are broadcast; both
branches broadcast the updated request list. -/
theorem approve_request_valid_index (reg : Registry) (sid : Nat) (code : Code)
    (rm : Room) (i : Int) (req : Req) (b : Bool)
    (hlk : lookupRoom reg code = some rm) (hh : rm.host = sid)
    (h0 : 0 ≤ i) (hlt : i < (rm.requests.length : Int))
    (hreq : rm.requests.get? i.toNat = some req) :
    ∃ rm', lookupRoom (approve_request reg sid code (some i) b).1 code =
        some rm' ∧
      rm'.requests = rm.requests.take i.toNat ++ rm.requests.drop (i.toNat + 1) ∧
      rm'.requests.length + 1 = rm.requests.length ∧
      (b = true →
        rm'.queue = rm.queue ++ [req.track] ∧
        rm'.currentTrack = rm.currentTrack ∧
        (approve_request reg sid code (some i) b).2 =
          [⟨0, allKeys rm.users, Event.queue_update (rm.queue ++ [req.track])⟩,
           ⟨0, allKeys rm.users, Event.requests_update rm'.requests⟩]) ∧
      (b = false →
        rm'.currentTrack = some req.track ∧ rm'.queue = [] ∧
        (approve_request reg sid code (some i) b).2 =
          [⟨0, allKeys rm.users, Event.load_track (some req.track)⟩,
           ⟨0, allKeys rm.users, Event.queue_update []⟩,
           ⟨0, allKeys rm.users, Event.requests_update rm'.requests⟩]) := by
  have hsp : splice1 rm.requests i =
      (rm.requests.take i.toNat ++ rm.requests.drop (i.toNat + 1), some req) := by
    unfold splice1
    rw [spliceStart_nonneg_lt h0 hlt, hreq]
  have hlen : (rm.requests.take i.toNat ++
      rm.requests.drop (i.toNat + 1)).length + 1 = rm.requests.length := by
    simp only [List.length_append, List.length_take, List.length_drop]
    omega
  cases b with
  | true =>
      refine ⟨{ rm with
          requests := rm.requests.take i.toNat ++ rm.requests.drop (i.toNat + 1),
          queue := rm.queue ++ [req.track] }, ?_, rfl, hlen,
        fun _ => ⟨rfl, rfl, ?_⟩, fun h => absurd h (by decide)⟩
      · simp only [approve_request, hlk, if_pos hh, hsp]
        exact lookupRoom_setRoom_self _ hlk
      · simp only [approve_request, hlk, if_pos hh, hsp, if_true]
  | false =>
      refine ⟨{ rm with
          requests := rm.requests.take i.toNat ++ rm.requests.drop (i.toNat + 1),
          currentTrack := some req.track, queue := [] }, ?_, rfl, hlen,
        fun h => absurd h (by decide), fun _ => ⟨rfl, rfl, ?_⟩⟩
      · simp only [approve_request, hlk, if_pos hh, hsp]
        exact lookupRoom_setRoom_self _ hlk
      · simp only [approve_request, hlk, if_pos hh, hsp,
          Bool.false_eq_true, if_false]

/-- Witness for C6: approving the only pending request with
`addToQueue = true` in a concrete room. -/
theorem approve_request_valid_index_witness :
    (lookupRoom regC6 cA = some rmC6 ∧ rmC6.host = 1 ∧ (0 : Int) ≤ 0 ∧
      (0 : Int) < (rmC6.requests.length : Int) ∧
      rmC6.requests.get? (0 : Int).toNat =
        some { track := ⟨9⟩, requestedBy := "G" }) ∧
    (∃ rm', lookupRoom (approve_request regC6 1 cA (some 0) true).1 cA =
        some rm' ∧
      rm'.requests = rmC6.requests.take (0 : Int).toNat ++
        rmC6.requests.drop ((0 : Int).toNat + 1) ∧
      rm'.requests.length + 1 = rmC6.requests.length ∧
      (true = true →
        rm'.queue = rmC6.queue ++ [Req.track { track := ⟨9⟩, requestedBy := "G" }] ∧
        rm'.currentTrack = rmC6.currentTrack ∧
        (approve_request regC6 1 cA (some 0) true).2 =
          [⟨0, allKeys rmC6.users, Event.queue_update
              (rmC6.queue ++ [Req.track { track := ⟨9⟩, requestedBy := "G" }])⟩,
           ⟨0, allKeys rmC6.users, Event.requests_update rm'.requests⟩]) ∧
      (true = false →
        rm'.currentTrack = some (Req.track { track := ⟨9⟩, requestedBy := "G" }) ∧
        rm'.queue = [] ∧
        (approve_request regC6 1 cA (some 0) true).2 =
          [⟨0, allKeys rmC6.users, Event.load_track
              (some (Req.track { track := ⟨9⟩, requestedBy := "G" }))⟩,
           ⟨0, allKeys rmC6.users, Event.queue_update []⟩,
           ⟨0, allKeys rmC6.users, Event.requests_update rm'.requests⟩])) :=
  ⟨⟨rfl, rfl, by decide, by decide, rfl⟩,
   approve_request_valid_index regC6 1 cA rmC6 0
     { track := ⟨9⟩, requestedBy := "G" } true rfl rfl (by decide) (by decide)
     rfl⟩

/-- Claim C8: `send_message` is dropped when the text is empty or the
sender is not a member; otherwise the text is truncated to 200
characters, the message appended to the history (whose length never
exceeds 100: the oldest entry is dropped first) and only the single new
message is broadcast to all members. -/
theorem send_message_truncates_and_caps (reg : Registry) (sid : Nat)
    (code : Code) (rm : Room) (text : String) (now : Nat)
    (hlk : lookupRoom reg code = some rm) :
    (text = "" → send_message reg sid code text now = (reg, [])) ∧
    (mapHas rm.users sid = false →
      send_message reg sid code text now = (reg, [])) ∧
    (text ≠ "" → mapHas rm.users sid = true → rm.messages.length ≤ 100 →
      ∃ rm', lookupRoom (send_message reg sid code text now).1 code =
          some rm' ∧
        rm'.messages =
          (if (rm.messages ++ [(⟨mapGetD rm.users sid "", text.take 200, now⟩ : Msg)]).length > 100
           then (rm.messages ++ [(⟨mapGetD rm.users sid "", text.take 200, now⟩ : Msg)]).tail
           else rm.messages ++ [(⟨mapGetD rm.users sid "", text.take 200, now⟩ : Msg)]) ∧
        rm'.messages.length ≤ 100 ∧
        (send_message reg sid code text now).2 =
          [⟨0, allKeys rm.users, Event.chat_message
            { name := mapGetD rm.users sid "", text := text.take 200,
              time := now }⟩]) := by
  refine ⟨?_, ?_, ?_⟩
  · intro ht
    simp [send_message, hlk, ht]
  · intro hm
    by_cases ht : text = ""
    · simp [send_message, hlk, ht]
    · simp [send_message, hlk, ht, hm]
  · intro ht hm hlen
    refine ⟨{ rm with messages :=
        if (rm.messages ++ [(⟨mapGetD rm.users sid "", text.take 200, now⟩ :
            Msg)]).length > 100
        then (rm.messages ++ [(⟨mapGetD rm.users sid "", text.take 200, now⟩ :
            Msg)]).tail
        else rm.messages ++ [(⟨mapGetD rm.users sid "", text.take 200, now⟩ :
            Msg)] }, ?_, rfl, ?_, ?_⟩
    · simp only [send_message, hlk, if_neg ht, hm, if_true]
      exact lookupRoom_setRoom_self _ hlk
    · by_cases hc : (rm.messages ++ [(⟨mapGetD rm.users sid "", text.take 200, now⟩ : Msg)]).length > 100
      · rw [if_pos hc]
        simp only [List.length_tail, List.length_append, List.length_cons,
          List.length_nil] at hc ⊢
        omega
      · rw [if_neg hc]
        simp only [List.length_append, List.length_cons, List.length_nil] at hc ⊢
        omega
    · simp only [send_message, hlk, if_neg ht, hm, if_true]

/-- Witness for C8: member 2 sends "hi" into a room with one stored
message; the message is appended and broadcast alone. -/
theorem send_message_truncates_and_caps_witness :
    (("hi" : String) ≠ "" ∧ mapHas rmC8.users 2 = true ∧
      rmC8.messages.length ≤ 100) ∧
    (∃ rm', lookupRoom (send_message regC8 2 cA "hi" 44).1 cA = some rm' ∧
      rm'.messages =
        (if (rmC8.messages ++ [(⟨mapGetD rmC8.users 2 "", ("hi" : String).take 200, 44⟩ : Msg)]).length > 100
         then (rmC8.messages ++ [(⟨mapGetD rmC8.users 2 "", ("hi" : String).take 200, 44⟩ : Msg)]).tail
         else rmC8.messages ++ [(⟨mapGetD rmC8.users 2 "", ("hi" : String).take 200, 44⟩ : Msg)]) ∧
      rm'.messages.length ≤ 100 ∧
      (send_message regC8 2 cA "hi" 44).2 =
        [⟨0, allKeys rmC8.users, Event.chat_message
          { name := mapGetD rmC8.users 2 "", text := ("hi" : String).take 200,
            time := 44 }⟩]) :=
  ⟨⟨by decide, by decide, by decide⟩,
   (send_message_truncates_and_caps regC8 2 cA rmC8 "hi" 44 rfl).2.2
     (by decide) (by decide) (by decide)⟩

/-- Counterexample to C9 as stated: with the room `"AAAA"` live and a
random stream that always draws 0 (so every attempt generates `"AAAA"`),
no attempt of the `do/while` retry loop is fresh — the loop never exits,
so code generation does not terminate for every registry state. -/
theorem create_room_nontermination_counterexample :
    ¬ ∃ n, freshAt regC2 drawsA n := by
  rintro ⟨n, hn⟩
  have h2 : lookupRoom regC2 cA = none :=
    (show generateRoomCode (drawsA n) = cA from rfl) ▸ hn
  exact absurd h2 (by decide)

/-- Claim C9 (amended): whenever some attempt of the random stream draws
a code that is not live (which can fail, e.g. for a stream that forever
draws a colliding code), the retry loop exits and `create_room` yields a
room whose code is exactly 4 uppercase ASCII letters and distinct from
every live room's code, with the creator as sole member and host and
`isHost = true` acked. -/
theorem create_room_succeeds_when_fresh (reg : Registry) (sid : Nat)
    (name : String) (draws : Nat → Fin 4 → Nat)
    (h : ∃ n, freshAt reg draws n) :
    (pickCode reg draws h).length = 4 ∧
    (∀ ch ∈ pickCode reg draws h, 'A' ≤ ch ∧ ch ≤ 'Z') ∧
    lookupRoom reg (pickCode reg draws h) = none ∧
    (create_room reg sid name (pickCode reg draws h)).1 =
      reg ++ [(pickCode reg draws h,
        { host := sid, users := [(sid, normName name "Host")],
          currentTrack := none, queue := [], messages := [], requests := [] })] ∧
    (create_room reg sid name (pickCode reg draws h)).2.1 =
      (pickCode reg draws h, true) := by
  refine ⟨?_, ?_, Nat.find_spec h, rfl, rfl⟩
  · simp [pickCode, generateRoomCode]
  · intro ch hch
    simp only [pickCode, generateRoomCode] at hch
    rcases List.mem_map.1 hch with ⟨j, -, rfl⟩
    have hlt : (draws (Nat.find h) j) % 26 < 26 := Nat.mod_lt _ (by norm_num)
    have hall : ∀ k : Nat, k < 26 →
        'A' ≤ chars.getD k 'A' ∧ chars.getD k 'A' ≤ 'Z' := by decide
    exact hall _ hlt

/-- Witness for C9 (amended): the empty registry with the constant-zero
stream; the first attempt is fresh and yields `"AAAA"`. -/
theorem create_room_succeeds_when_fresh_witness :
    (∃ n, freshAt [] drawsA n) ∧
    ((pickCode [] drawsA ⟨0, rfl⟩).length = 4 ∧
     (∀ ch ∈ pickCode [] drawsA ⟨0, rfl⟩, 'A' ≤ ch ∧ ch ≤ 'Z') ∧
     lookupRoom [] (pickCode [] drawsA ⟨0, rfl⟩) = none ∧
     (create_room [] 1 "Al" (pickCode [] drawsA ⟨0, rfl⟩)).1 =
       [] ++ [(pickCode [] drawsA ⟨0, rfl⟩,
         { host := 1, users := [(1, normName "Al" "Host")],
           currentTrack := none, queue := [], messages := [], requests := [] })] ∧
     (create_room [] 1 "Al" (pickCode [] drawsA ⟨0, rfl⟩)).2.1 =
       (pickCode [] drawsA ⟨0, rfl⟩, true)) :=
  ⟨⟨0, rfl⟩, create_room_succeeds_when_fresh [] 1 "Al" drawsA ⟨0, rfl⟩⟩

theorem mapHas_of_mapDelete_nil {m : List (Nat × String)} {sid : Nat}
    (hm : m ≠ []) (hd : mapDelete m sid = []) : mapHas m sid = true := by
  cases m with
  | nil => exact absurd rfl hm
  | cons p tl =>
      by_cases hp : p.1 = sid
      · simp [mapHas, hp]
      · simp [mapDelete, hp] at hd

/-- Claim C1: in every reachable registry state each live room's host is
a member and no live room is empty; when the last member disconnects the
room is deleted, and when the host disconnects from a room with
remaining members exactly one remaining member (the first in insertion
order) becomes the new host. -/
theorem host_membership_and_deletion_invariant (reg : Registry)
    (hreach : Reachable reg) :
    (∀ c rm, lookupRoom reg c = some rm →
      mapHas rm.users rm.host = true ∧ rm.users ≠ []) ∧
    (∀ sid c rm, lookupRoom reg c = some rm → mapDelete rm.users sid = [] →
      lookupRoom (disconnect reg sid).1 c = none) ∧
    (∀ sid c rm, lookupRoom reg c = some rm → rm.host = sid →
      ∀ u rest, mapDelete rm.users sid = u :: rest →
      ∃ rm', lookupRoom (disconnect reg sid).1 c = some rm' ∧
        rm'.users = u :: rest ∧ rm'.host = u.1 ∧
        mapHas rm'.users rm'.host = true ∧ rm'.host ≠ sid) := by
  have hwf := regWF_reachable hreach
  refine ⟨?_, ?_, ?_⟩
  · intro c rm hlk
    exact hwf.2 _ (lookupRoom_mem hlk)
  · intro sid c rm hlk hdel
    have hroom := hwf.2 _ (lookupRoom_mem hlk)
    have hm : mapHas rm.users sid = true :=
      mapHas_of_mapDelete_nil hroom.2 hdel
    show lookupRoom (discReg sid reg) c = none
    rw [lookupRoom_discReg hwf.1 sid c, hlk]
    simp [discRoomState, hm, hdel]
  · intro sid c rm hlk hhost u rest hdel
    have hroom := hwf.2 _ (lookupRoom_mem hlk)
    have hm : mapHas rm.users sid = true := hhost ▸ hroom.1
    have hu : u.1 ≠ sid := by
      have hmem : u ∈ mapDelete rm.users sid := by
        rw [hdel]
        exact List.mem_cons_self u rest
      exact (mem_mapDelete hmem).2
    refine ⟨{ rm with users := u :: rest, host := u.1 }, ?_, rfl, rfl,
      by simp [mapHas], hu⟩
    show lookupRoom (discReg sid reg) c = some _
    rw [lookupRoom_discReg hwf.1 sid c, hlk]
    simp [discRoomState, hm, hdel, hhost]

/-- Witness for C1: a registry reached by create (host 1) then join
(guest 2); the invariant holds of its one room, and when host 1
disconnects, guest 2 becomes host of the surviving room. -/
theorem host_membership_and_deletion_invariant_witness :
    (mapHas rmW2.users rmW2.host = true ∧ rmW2.users ≠ []) ∧
    (∃ rm', lookupRoom (disconnect regW2 1).1 cA = some rm' ∧
      rm'.users = [(2, "Bo")] ∧ rm'.host = 2 ∧
      mapHas rm'.users rm'.host = true ∧ rm'.host ≠ 1) := by
  have hr : Reachable regW2 :=
    Reachable.join regW1 2 ("aaaa".toList) "Bo"
      (Reachable.create [] 1 "Al" dZero rfl Reachable.init)
  exact ⟨(host_membership_and_deletion_invariant regW2 hr).1 cA rmW2
      (by decide),
    (host_membership_and_deletion_invariant regW2 hr).2.2 1 cA rmW2
      (by decide) rfl (2, "Bo") [] (by decide)⟩

end VibeSync
